import Mathlib

set_option autoImplicit false

namespace BuddyStore

/-! Shallow embedding of the go-chord (buddystore) repository.

Identifiers and keys are byte slices, modelled as `List Nat` whose entries
are intended to lie below 256.  `compareBytes` mirrors Go's `bytes.Compare`
(lexicographic comparison, a strict prefix is smaller). -/

/-- Lexicographic comparison of byte slices, as Go's `bytes.Compare`
(result `.lt`/`.eq`/`.gt` for -1/0/1). -/
def compareBytes : List Nat → List Nat → Ordering
  | [], [] => .eq
  | [], _ :: _ => .lt
  | _ :: _, [] => .gt
  | a :: as, b :: bs =>
    if a < b then .lt
    else if b < a then .gt
    else compareBytes as bs

/-- Embeds `between` from src/util.go: checks if a key is strictly between
two IDs, handling ring wrap-around. -/
def between (id1 id2 key : List Nat) : Bool :=
  if compareBytes id1 id2 = .gt then
    compareBytes id1 key = .lt || compareBytes id2 key = .gt
  else
    compareBytes id1 key = .lt && compareBytes id2 key = .gt

/-- Embeds `betweenRightIncl` from src/util.go: checks if a key is between
two IDs, right inclusive (`bytes.Compare(id2, key) >= 0` is `≠ .lt`). -/
def betweenRightIncl (id1 id2 key : List Nat) : Bool :=
  if compareBytes id1 id2 = .gt then
    compareBytes id1 key = .lt || compareBytes id2 key ≠ .lt
  else
    compareBytes id1 key = .lt && compareBytes id2 key ≠ .lt

/-- Numeric value of a big-endian byte slice, as Go's `big.Int.SetBytes`. -/
def bytesToNat : List Nat → Nat
  | [] => 0
  | b :: bs => b * 256 ^ bs.length + bytesToNat bs

/-- Fuel-driven helper for `natToBytes`; the fuel dominates the number of
division steps so the recursion is structural (and kernel-reducible). -/
def natToBytesAux : Nat → Nat → List Nat
  | 0, _ => []
  | _ + 1, 0 => []
  | fuel + 1, n + 1 => natToBytesAux fuel ((n + 1) / 256) ++ [(n + 1) % 256]

/-- Minimal big-endian byte representation of a natural number, as Go's
`big.Int.Bytes` (zero becomes the empty slice, no leading zero bytes). -/
def natToBytes (n : Nat) : List Nat :=
  natToBytesAux n n

/-- Embeds `powerOffset` from src/util.go: converts the ID to a big integer,
adds `2^exp`, reduces modulo `2^mod`, and renders the result back through
`big.Int.Bytes`. -/
def powerOffset (id : List Nat) (exp mod' : Nat) : List Nat :=
  natToBytes ((bytesToNat id + 2 ^ exp) % 2 ^ mod')

/-! ## Lock manager (src/lm_server.go)

State is embedded with total maps (`String → _`), matching Go map semantics:
a missing `VersionMap` key reads as 0 and a missing `WLocks`/`RLocks` key
reads as `none` (nil).  The crypto-random lock id and the wall clock are
passed in as explicit arguments.  Go `uint`/`uint64` increments are taken
modulo `2^64`. -/

def UINT64 : Nat := 2 ^ 64

/-- Embeds `OpsLogEntry` (the Go `Timeout *time.Time` becomes an optional
abstract instant). -/
structure OpsLogEntry where
  OpNum : Nat
  Op : String
  Key : String
  Version : Nat
  Timeout : Option Nat
deriving DecidableEq, Repr

/-- Embeds `WLockEntry`; `timeout` is the absolute deadline instant. -/
structure WLockEntry where
  nodeID : String
  LockID : String
  version : Nat
  timeout : Nat
deriving DecidableEq, Repr

/-- Embeds `RLockEntry`: the Go `nodeSet map[string][]string` holds, per
node id, a two-element slice `[lockID, remoteAddr]`; it is embedded as an
association list of `(nodeID, lockID, remoteAddr)` whose iteration order
stands in for Go's map iteration. -/
structure RLockEntry where
  nodeSet : List (String × String × String)
deriving DecidableEq, Repr

/-- The lock-manager state from `LManager` (only the fields the lock
operations read or write). -/
structure LManager where
  VersionMap : String → Nat
  RLocks : String → Option RLockEntry
  WLocks : String → Option WLockEntry
  currOpNum : Nat
  OpsLog : List OpsLogEntry

/-- Pointwise map update, the effect of a Go map assignment. -/
def mapUpd {α : Type} (m : String → α) (k : String) (v : α) : String → α :=
  fun k' => if k' = k then v else m k'

/-- The freshly initialised lock manager (nil maps, empty op-log). -/
def initLM : LManager :=
  { VersionMap := fun _ => 0, RLocks := fun _ => none, WLocks := fun _ => none,
    currOpNum := 0, OpsLog := [] }

/-- Embeds `checkWLock`; the error component is always nil in the source,
and is kept so callers can mirror their dead error branches. -/
def checkWLock (lm : LManager) (key : String) : Bool × Nat × Option String :=
  match lm.WLocks key with
  | none => (false, 0, none)
  | some e => (true, e.version, none)

/-- The lock-granting tail of `createWLock`: append a WRITE record under the
next operation number and install the `WLocks` entry. -/
def wLockGrant (lm : LManager) (key : String) (v timeout : Nat)
    (nodeID lockID : String) (now : Nat) :
    LManager × String × Nat × Nat × Option String :=
  let t := now + timeout
  let opNum' := (lm.currOpNum + 1) % UINT64
  ({ lm with currOpNum := opNum',
             OpsLog := lm.OpsLog ++ [⟨opNum', "WRITE", key, v, some t⟩],
             WLocks := mapUpd lm.WLocks key (some ⟨nodeID, lockID, v, t⟩) },
   lockID, v, timeout, none)

/-- Embeds `createWLock`: refuse when a write lock is already held, pick the
version (`VersionMap[key] + 1` on a zero request, reject a stale nonzero
request), then grant. -/
def createWLock (lm : LManager) (key : String) (version timeout : Nat)
    (nodeID lockID : String) (now : Nat) :
    LManager × String × Nat × Nat × Option String :=
  match checkWLock lm key with
  | (_, _, some _) =>
    (lm, "", 0, 0,
      some "Error while checking if a write lock exists already for that key")
  | (present, _, none) =>
    if present then
      (lm, "", (match lm.WLocks key with | some e => e.version | none => 0), 0,
        some "WriteLock not possible. Key is currently being updated")
    else if version ≤ lm.VersionMap key then
      if version = 0 then
        wLockGrant lm key ((lm.VersionMap key + 1) % UINT64) timeout nodeID lockID now
      else
        (lm, "", lm.VersionMap key, 0,
          some "Committed version is higher than requested version")
    else wLockGrant lm key version timeout nodeID lockID now

/-- The state mutation of a successful `commitWLock`: set the committed
version, append the COMMIT record under the next operation number, delete
the write lock. -/
def commitApply (lm : LManager) (key : String) (version : Nat) : LManager :=
  { lm with VersionMap := mapUpd lm.VersionMap key version,
            currOpNum := (lm.currOpNum + 1) % UINT64,
            OpsLog := lm.OpsLog ++
              [⟨(lm.currOpNum + 1) % UINT64, "COMMIT", key, version, none⟩],
            WLocks := mapUpd lm.WLocks key none }

/-- Embeds `commitWLock`.  The middle component of the result records the
`InvalidateRLock` transport calls that are issued, each as
`(target vnode id, target host, lock id)`; when `version == 1` the function
returns before reaching the invalidation loop. -/
def commitWLock (lm : LManager) (key : String) (version : Nat)
    (nodeID : String) :
    LManager × List (String × String × String) × Option String :=
  match checkWLock lm key with
  | (_, _, some _) =>
    (lm, [],
      some "Error while looking up the existing set of write locks in Lock Manager")
  | (present, ver, none) =>
    if !present then (lm, [], some "Lock not available. Cannot commit")
    else if ver ≠ version then
      (lm, [],
        some "Requested version doesn't match with the version locked. Cannot commit")
    else if version = 1 then (commitApply lm key version, [], none)
    else
      match lm.RLocks key with
      | none => (commitApply lm key version, [], none)
      | some re =>
        (commitApply lm key version,
         re.nodeSet.map (fun ent => (ent.1, ent.2.2, ent.2.1)), none)

/-- The state mutation of a successful `abortWLock`: append the ABORT
record under the next operation number and delete the write lock. -/
def abortApply (lm : LManager) (key : String) (version : Nat) : LManager :=
  { lm with currOpNum := (lm.currOpNum + 1) % UINT64,
            OpsLog := lm.OpsLog ++
              [⟨(lm.currOpNum + 1) % UINT64, "ABORT", key, version, none⟩],
            WLocks := mapUpd lm.WLocks key none }

/-- Embeds `abortWLock`. -/
def abortWLock (lm : LManager) (key : String) (version : Nat)
    (nodeID : String) : LManager × Option String :=
  match checkWLock lm key with
  | (_, _, some _) =>
    (lm,
      some "Error while looking up the existing set of write locks in Lock Manager")
  | (present, ver, none) =>
    if !present then (lm, some "Lock not available. Nothing to abort")
    else if ver ≠ version then
      (lm,
        some "Requested version doesn't match with the version locked. Cannot abort")
    else (abortApply lm key version, none)

/-- Go map assignment `nodeSet[nodeID] = [lockID, addr]`: replace the entry
for `nodeID` if present, otherwise add it. -/
def nsInsert : List (String × String × String) → String → String → String →
    List (String × String × String)
  | [], nodeID, lid, addr => [(nodeID, lid, addr)]
  | e :: rest, nodeID, lid, addr =>
    if e.1 = nodeID then (nodeID, lid, addr) :: rest
    else e :: nsInsert rest nodeID lid addr

/-- Go map read `nodeSet[nodeID]`, yielding the `(lockID, remoteAddr)` pair. -/
def nsLookup (ns : List (String × String × String)) (nodeID : String) :
    Option (String × String) :=
  (ns.find? (fun e => e.1 = nodeID)).map (fun e => e.2)

/-- The recorded `nodeSet` for a key (empty when `RLocks[key]` is nil, as a
Go read through a nil map/pointer chain would observe no holders). -/
def rlockNodeSet (lm : LManager) (key : String) : List (String × String × String) :=
  match lm.RLocks key with
  | none => []
  | some re => re.nodeSet

/-- Embeds `createRLock`: refuse on an uncommitted key, otherwise record the
fresh lock id and caller address for `nodeID` under the key (`VersionMap` is
unchanged, so the version returned after insertion is the committed one). -/
def createRLock (lm : LManager) (key nodeID remoteAddr lockID : String) :
    LManager × String × Nat × Option String :=
  if lm.VersionMap key = 0 then
    (lm, "", 0, some "ReadLock not possible. Key not present in LM")
  else
    ({ lm with RLocks := (mapUpd lm.RLocks key
        (some ⟨nsInsert (rlockNodeSet lm key) nodeID lockID remoteAddr⟩)) },
     lockID, lm.VersionMap key, none)

/-- One firing of the timeout ticker body (`scheduleTimeoutTicker`): drop
every `WLocks` entry whose deadline is at or before `now`. -/
def sweepWLocks (lm : LManager) (now : Nat) : LManager :=
  { lm with WLocks := fun k =>
      match lm.WLocks k with
      | none => none
      | some e => if e.timeout ≤ now then none else some e }

/-- One client-visible lock operation, for sequencing the three op-log
writers. -/
inductive LMOp where
  | wlock (key : String) (version timeout : Nat) (nodeID lockID : String) (now : Nat)
  | commit (key : String) (version : Nat) (nodeID : String)
  | abort (key : String) (version : Nat) (nodeID : String)

/-- State transition of one lock operation (result values discarded). -/
def lmStep (lm : LManager) (op : LMOp) : LManager :=
  match op with
  | .wlock k v t n lid now => (createWLock lm k v t n lid now).1
  | .commit k v n => (commitWLock lm k v n).1
  | .abort k v n => (abortWLock lm k v n).1

/-! ### Example lock-manager states used as concrete scenarios -/

/-- A state holding one write lock on "a" (version 1, deadline 0). -/
def exSt1 : LManager := (createWLock initLM "a" 0 0 "n1" "L1" 0).1

/-- Scenario of spec §8: lock "a", commit version 1, read-lock by "n2",
lock again for version 2. -/
def exA1 : LManager := (createWLock initLM "a" 0 5 "n1" "L1" 100).1

def exA2 : LManager := (commitWLock exA1 "a" 1 "n1").1

def exA3 : LManager := (createRLock exA2 "a" "n2" "addr2" "R1").1

def exA4 : LManager := (createWLock exA3 "a" 0 5 "n1" "L2" 200).1

/-! ### C7: op-log monotonicity -/

instance instOpsLogEntryLtTrans :
    IsTrans OpsLogEntry (fun a b => a.OpNum < b.OpNum) :=
  ⟨fun _ _ _ h1 h2 => Nat.lt_trans h1 h2⟩

/-- Op-log bookkeeping invariant: the operation counter equals the log
length, entry numbers are strictly increasing along the log, and every
entry number is at most the counter. -/
def logOK (lm : LManager) : Prop :=
  lm.currOpNum = lm.OpsLog.length ∧
  lm.OpsLog.Chain' (fun a b => a.OpNum < b.OpNum) ∧
  ∀ e ∈ lm.OpsLog, e.OpNum ≤ lm.currOpNum

/-! ## Routing (src/vnode.go, src/chord.go)

`FindSuccessors` is embedded with the transport forwards abstracted: the
closest-preceding-node iterator yields a sequence of forward attempts whose
outcomes (`some` result on success, `none` on error) are passed in as a
list.  A nil vnode pointer is `none`; dereferencing a nil entry's `Id`, as
the Go fallback loop would, is modelled by `idOf` returning `[]`. -/

/-- A vnode handle (`Vnode` in src/chord.go). -/
structure Vn where
  Id : List Nat
  Host : String
deriving DecidableEq, Repr

/-- The `Id` read through a possibly-nil vnode pointer. -/
def idOf : Option Vn → List Nat
  | some v => v.Id
  | none => []

/-- Modelled from the spec: `copyOfVnodesList` is referenced by
src/vnode.go but its definition is not among the provided source files;
§4.2 step 1 of the spec says the routine returns the first `n` entries of
the list. -/
def copyOfVnodesList (l : List (Option Vn)) (n : Nat) : List (Option Vn) :=
  l.take n

/-- Embeds `knownSuccessors`: index of the last non-nil successor plus
one. -/
def knownSuccessors (succs : List (Option Vn)) : Nat :=
  succs.enum.foldl (fun acc p => if p.2.isSome then p.1 + 1 else acc) 0

/-- The forwarding loop over the closest-preceding-node iterator: return
the first successful transport result. -/
def firstForwardSuccess :
    List (Option (List (Option Vn))) → Option (List (Option Vn))
  | [] => none
  | some r :: _ => some r
  | none :: rest => firstForwardSuccess rest

/-- Embeds `FindSuccessors` (src/vnode.go lines 403-448): immediate window
check, then the forwarding loop, then the fallback scan over indices
`1 ≤ i ≤ knownSuccessors - n`, else the exhaustion error. -/
def findSuccessors (selfId : List Nat) (succs : List (Option Vn)) (n : Nat)
    (key : List Nat) (forwards : List (Option (List (Option Vn)))) :
    Option (List (Option Vn)) × Option String :=
  if betweenRightIncl selfId (idOf (succs.getD 0 none)) key then
    (some (copyOfVnodesList succs n), none)
  else
    match firstForwardSuccess forwards with
    | some res => (some res, none)
    | none =>
      match (List.range' 1 (knownSuccessors succs - n)).find?
          (fun i => betweenRightIncl selfId (idOf (succs.getD i none)) key) with
      | some i =>
        (some (copyOfVnodesList
          (if (succs.drop i).length > n then (succs.drop i).take n
           else succs.drop i)
          (if (succs.drop i).length > n then (succs.drop i).take n
           else succs.drop i).length), none)
      | none => (none, some "Exhausted all preceeding nodes!")

/-- Two successors `[20], [30]`, self `[10]`, key `[25]`, `n = 2`: index 1
satisfies the window predicate, yet with `n` equal to the number of known
successors the fallback loop body never runs and the call fails. -/
def cexSuccs : List (Option Vn) := [some ⟨[20], "h1"⟩, some ⟨[30], "h2"⟩]

/-! ### C8: the trailing-nil trim in `Ring.Lookup` -/

/-- The trimming loop of `Ring.Lookup` on the reversed list: `none` models
the `successors[-1]` index-out-of-range panic reached when the slice is
empty. -/
def trimRev : List (Option Vn) → Option (List (Option Vn))
  | [] => none
  | none :: rest => trimRev rest
  | some v :: rest => some (some v :: rest)

/-- Embeds the trailing-nil trimming loop of `Ring.Lookup`
(src/chord.go lines 381-385). -/
def lookupTrim (successors : List (Option Vn)) : Option (List (Option Vn)) :=
  (trimRev successors.reverse).map List.reverse

/-- The tail of `Ring.Lookup` after `FindSuccessors` returns: propagate an
error, otherwise trim trailing nils; the outer `none` is the panic. -/
def ringLookup (successors : List (Option Vn)) (err : Option String) :
    Option (List (Option Vn) × Option String) :=
  match err with
  | some e => some ([], some e)
  | none => (lookupTrim successors).map (fun out => (out, none))

/-! ## Theorems -/

/-! ### Facts about the byte-slice arithmetic -/

theorem compareBytes_self (l : List Nat) : compareBytes l l = .eq := by
  induction l with
  | nil => rfl
  | cons a as ih => simp [compareBytes, ih]

theorem bytesToNat_lt (l : List Nat) (h : ∀ x ∈ l, x < 256) :
    bytesToNat l < 256 ^ l.length := by
  induction l with
  | nil => simp [bytesToNat]
  | cons a as ih =>
    have ha : a < 256 := h a (List.mem_cons_self a as)
    have has : bytesToNat as < 256 ^ as.length :=
      ih (fun x hx => h x (List.mem_cons_of_mem a hx))
    have : a * 256 ^ as.length + bytesToNat as < (a + 1) * 256 ^ as.length := by
      calc a * 256 ^ as.length + bytesToNat as
          < a * 256 ^ as.length + 256 ^ as.length := by omega
        _ = (a + 1) * 256 ^ as.length := by ring
    calc bytesToNat (a :: as) = a * 256 ^ as.length + bytesToNat as := rfl
      _ < (a + 1) * 256 ^ as.length := this
      _ ≤ 256 * 256 ^ as.length := by
          exact Nat.mul_le_mul_right _ (by omega)
      _ = 256 ^ (as.length + 1) := by ring
      _ = 256 ^ (a :: as).length := by simp

/-- On equal-length byte slices with in-range entries, lexicographic
comparison agrees with comparison of the numeric (big-endian) values. -/
theorem compareBytes_eq_compare (a b : List Nat)
    (hlen : a.length = b.length)
    (ha : ∀ x ∈ a, x < 256) (hb : ∀ x ∈ b, x < 256) :
    compareBytes a b = compare (bytesToNat a) (bytesToNat b) := by
  induction a generalizing b with
  | nil =>
    cases b with
    | nil =>
      show Ordering.eq = compare 0 0
      decide
    | cons y ys => simp at hlen
  | cons x xs ih =>
    cases b with
    | nil => simp at hlen
    | cons y ys =>
      have hlen' : xs.length = ys.length := by simpa using hlen
      have hx : x < 256 := ha x (List.mem_cons_self x xs)
      have hy : y < 256 := hb y (List.mem_cons_self y ys)
      have hxs : ∀ z ∈ xs, z < 256 := fun z hz => ha z (List.mem_cons_of_mem x hz)
      have hys : ∀ z ∈ ys, z < 256 := fun z hz => hb z (List.mem_cons_of_mem y hz)
      have hvx : bytesToNat xs < 256 ^ xs.length := bytesToNat_lt xs hxs
      have hvy : bytesToNat ys < 256 ^ ys.length := bytesToNat_lt ys hys
      show (if x < y then Ordering.lt else if y < x then Ordering.gt
            else compareBytes xs ys) = _
      by_cases hlt : x < y
      · have : bytesToNat (x :: xs) < bytesToNat (y :: ys) := by
          show x * 256 ^ xs.length + bytesToNat xs <
            y * 256 ^ ys.length + bytesToNat ys
          calc x * 256 ^ xs.length + bytesToNat xs
              < (x + 1) * 256 ^ xs.length := by
                have := hvx; ring_nf; omega
            _ ≤ y * 256 ^ xs.length := Nat.mul_le_mul_right _ (by omega)
            _ = y * 256 ^ ys.length := by rw [hlen']
            _ ≤ y * 256 ^ ys.length + bytesToNat ys := Nat.le_add_right _ _
        simp [hlt, Nat.compare_eq_lt.mpr this]
      · by_cases hgt : y < x
        · have : bytesToNat (y :: ys) < bytesToNat (x :: xs) := by
            show y * 256 ^ ys.length + bytesToNat ys <
              x * 256 ^ xs.length + bytesToNat xs
            calc y * 256 ^ ys.length + bytesToNat ys
                < (y + 1) * 256 ^ ys.length := by
                  have := hvy; ring_nf; omega
              _ ≤ x * 256 ^ ys.length := Nat.mul_le_mul_right _ (by omega)
              _ = x * 256 ^ xs.length := by rw [hlen']
              _ ≤ x * 256 ^ xs.length + bytesToNat xs := Nat.le_add_right _ _
          simp [hlt, hgt, Nat.compare_eq_gt.mpr this]
        · have hxy : x = y := by omega
          subst hxy
          have : bytesToNat (x :: xs) = x * 256 ^ ys.length + bytesToNat xs := by
            show x * 256 ^ xs.length + bytesToNat xs = _
            rw [hlen']
          rw [ih ys hlen' hxs hys]
          simp only [hlt, if_false]
          show compare (bytesToNat xs) (bytesToNat ys) =
            compare (x * 256 ^ xs.length + bytesToNat xs)
              (x * 256 ^ ys.length + bytesToNat ys)
          rw [hlen']
          rcases Nat.lt_trichotomy (bytesToNat xs) (bytesToNat ys) with h | h | h
          · rw [Nat.compare_eq_lt.mpr h, Nat.compare_eq_lt.mpr (by omega)]
          · rw [h, Nat.compare_eq_eq.mpr rfl, Nat.compare_eq_eq.mpr rfl]
          · rw [Nat.compare_eq_gt.mpr h, Nat.compare_eq_gt.mpr (by omega)]

theorem natToBytesAux_zero (fuel : Nat) : natToBytesAux fuel 0 = [] := by
  cases fuel <;> rfl

theorem natToBytesAux_congr (n : Nat) :
    ∀ f1 f2 : Nat, n ≤ f1 → n ≤ f2 → natToBytesAux f1 n = natToBytesAux f2 n := by
  induction n using Nat.strong_induction_on with
  | _ n ih =>
    intro f1 f2 h1 h2
    cases n with
    | zero => rw [natToBytesAux_zero, natToBytesAux_zero]
    | succ m =>
      obtain ⟨a, rfl⟩ : ∃ a, f1 = a + 1 := ⟨f1 - 1, by omega⟩
      obtain ⟨b, rfl⟩ : ∃ b, f2 = b + 1 := ⟨f2 - 1, by omega⟩
      show natToBytesAux a ((m + 1) / 256) ++ _ = natToBytesAux b ((m + 1) / 256) ++ _
      have hdiv : (m + 1) / 256 < m + 1 := Nat.div_lt_self (by omega) (by omega)
      rw [ih ((m + 1) / 256) hdiv a b (by omega) (by omega)]

theorem natToBytes_pos (n : Nat) (h : n ≠ 0) :
    natToBytes n = natToBytes (n / 256) ++ [n % 256] := by
  obtain ⟨m, rfl⟩ : ∃ m, n = m + 1 := ⟨n - 1, by omega⟩
  show natToBytesAux m ((m + 1) / 256) ++ _ = _
  have hdiv : (m + 1) / 256 < m + 1 := Nat.div_lt_self (by omega) (by omega)
  rw [natToBytesAux_congr ((m + 1) / 256) m ((m + 1) / 256) (by omega) (le_refl _)]
  rfl

theorem bytesToNat_append_singleton (xs : List Nat) (d : Nat) :
    bytesToNat (xs ++ [d]) = 256 * bytesToNat xs + d := by
  induction xs with
  | nil => simp [bytesToNat]
  | cons a as ih =>
    show a * 256 ^ (as ++ [d]).length + bytesToNat (as ++ [d]) = _
    rw [ih]
    simp [bytesToNat, List.length_append]
    ring

/-- Round trip: reading back the minimal big-endian bytes of `n` yields `n`
(mirrors `big.Int.SetBytes(bigInt.Bytes()) = bigInt` for nonnegative values). -/
theorem bytesToNat_natToBytes (n : Nat) : bytesToNat (natToBytes n) = n := by
  induction n using Nat.strong_induction_on with
  | _ n ih =>
    cases Nat.eq_zero_or_pos n with
    | inl h => subst h; rfl
    | inr h =>
      rw [natToBytes_pos n (by omega), bytesToNat_append_singleton,
        ih (n / 256) (Nat.div_lt_self h (by omega))]
      omega

theorem natToBytes_mem_lt (n : Nat) : ∀ x ∈ natToBytes n, x < 256 := by
  induction n using Nat.strong_induction_on with
  | _ n ih =>
    intro x hx
    cases Nat.eq_zero_or_pos n with
    | inl h => subst h; simp [natToBytes, natToBytesAux] at hx
    | inr h =>
      rw [natToBytes_pos n (by omega)] at hx
      rcases List.mem_append.mp hx with hx | hx
      · exact ih (n / 256) (Nat.div_lt_self h (by omega)) x hx
      · have : x = n % 256 := by simpa using hx
        subst this
        exact Nat.mod_lt _ (by omega)

theorem bytesToNat_pos_of_head_ne_zero (h : Nat) (t : List Nat) (hh : h ≠ 0) :
    0 < bytesToNat (h :: t) := by
  show 0 < h * 256 ^ t.length + bytesToNat t
  have : 0 < 256 ^ t.length := Nat.pos_pow_of_pos _ (by omega)
  have : 0 < h * 256 ^ t.length := Nat.mul_pos (by omega) this
  omega

/-- Reverse round trip: a byte slice with in-range entries and no leading zero
byte is recovered from its numeric value. -/
theorem natToBytes_bytesToNat (id : List Nat)
    (hb : ∀ z ∈ id, z < 256)
    (hhead : ∀ h t, id = h :: t → h ≠ 0) :
    natToBytes (bytesToNat id) = id := by
  induction id using List.reverseRecOn with
  | nil => rfl
  | append_singleton xs d ih =>
    have hd : d < 256 := hb d (by simp)
    have hbxs : ∀ z ∈ xs, z < 256 := fun z hz => hb z (by simp [hz])
    rw [bytesToNat_append_singleton]
    cases Nat.eq_zero_or_pos (256 * bytesToNat xs + d) with
    | inl hzero =>
      have hdz : d = 0 := by omega
      have hvz : bytesToNat xs = 0 := by omega
      cases xs with
      | nil =>
        exact absurd hdz (hhead d [] rfl)
      | cons y ys =>
        have hy : y ≠ 0 := hhead y (ys ++ [d]) (by simp)
        have := bytesToNat_pos_of_head_ne_zero y ys hy
        omega
    | inr hpos =>
      rw [natToBytes_pos _ (by omega)]
      have hdiv : (256 * bytesToNat xs + d) / 256 = bytesToNat xs := by
        omega
      have hmod : (256 * bytesToNat xs + d) % 256 = d := by
        omega
      rw [hdiv, hmod]
      cases xs with
      | nil => simp [bytesToNat, natToBytes, natToBytesAux]
      | cons y ys =>
        have hy : y ≠ 0 := hhead y (ys ++ [d]) (by simp)
        rw [ih hbxs (by intro h t he; rw [List.cons.injEq] at he; exact he.1 ▸ hy)]

/-! ### Claim theorems about the ring arithmetic -/

/-- C5: for equal-length byte identifiers with in-range entries, the two ring
interval predicates match the spec's wrap rule: when `a > b` (the interval
wraps the origin) `between a b x` holds iff `x > a` or `x < b` and
`betweenRightIncl a b x` holds iff `x > a` or `x ≤ b`; when `a < b`,
`between a b x` holds iff `a < x < b` and `betweenRightIncl a b x` holds iff
`a < x ≤ b` (values taken as big-endian numbers). -/
theorem between_wrap_rule (a b x : List Nat)
    (hab : a.length = b.length) (hax : a.length = x.length)
    (ha : ∀ z ∈ a, z < 256) (hb : ∀ z ∈ b, z < 256) (hx : ∀ z ∈ x, z < 256) :
    (bytesToNat b < bytesToNat a →
      ((between a b x = true ↔
          (bytesToNat a < bytesToNat x ∨ bytesToNat x < bytesToNat b)) ∧
       (betweenRightIncl a b x = true ↔
          (bytesToNat a < bytesToNat x ∨ bytesToNat x ≤ bytesToNat b)))) ∧
    (bytesToNat a < bytesToNat b →
      ((between a b x = true ↔
          (bytesToNat a < bytesToNat x ∧ bytesToNat x < bytesToNat b)) ∧
       (betweenRightIncl a b x = true ↔
          (bytesToNat a < bytesToNat x ∧ bytesToNat x ≤ bytesToNat b)))) := by
  have hbx : b.length = x.length := by omega
  have cab := compareBytes_eq_compare a b hab ha hb
  have cax := compareBytes_eq_compare a x hax ha hx
  have cbx := compareBytes_eq_compare b x hbx hb hx
  constructor
  · intro hgt
    have hcond : compareBytes a b = Ordering.gt := by
      rw [cab]; exact Nat.compare_eq_gt.mpr hgt
    constructor
    · rw [between, if_pos hcond]
      simp only [cax, cbx, Bool.or_eq_true, decide_eq_true_eq,
        Nat.compare_eq_lt, Nat.compare_eq_gt] <;> omega
    · rw [betweenRightIncl, if_pos hcond]
      simp only [cax, cbx, Bool.or_eq_true, decide_eq_true_eq, ne_eq,
        decide_not, Bool.not_eq_true', decide_eq_false_iff_not,
        Nat.compare_eq_lt, Nat.compare_eq_gt] <;> omega
  · intro hlt
    have hcond : compareBytes a b ≠ Ordering.gt := by
      rw [cab]
      simp only [ne_eq, Nat.compare_eq_gt]
      omega
    constructor
    · rw [between, if_neg hcond]
      simp only [cax, cbx, Bool.and_eq_true, decide_eq_true_eq,
        Nat.compare_eq_lt, Nat.compare_eq_gt] <;> omega
    · rw [betweenRightIncl, if_neg hcond]
      simp only [cax, cbx, Bool.and_eq_true, decide_eq_true_eq, ne_eq,
        decide_not, Bool.not_eq_true', decide_eq_false_iff_not,
        Nat.compare_eq_lt, Nat.compare_eq_gt] <;> omega

theorem between_wrap_rule_witness :
    (bytesToNat [1] < bytesToNat [2] →
      ((between [2] [1] [0] = true ↔
          (bytesToNat [2] < bytesToNat [0] ∨ bytesToNat [0] < bytesToNat [1])) ∧
       (betweenRightIncl [2] [1] [0] = true ↔
          (bytesToNat [2] < bytesToNat [0] ∨ bytesToNat [0] ≤ bytesToNat [1])))) ∧
    (bytesToNat [2] < bytesToNat [1] →
      ((between [2] [1] [0] = true ↔
          (bytesToNat [2] < bytesToNat [0] ∧ bytesToNat [0] < bytesToNat [1])) ∧
       (betweenRightIncl [2] [1] [0] = true ↔
          (bytesToNat [2] < bytesToNat [0] ∧ bytesToNat [0] ≤ bytesToNat [1])))) :=
  between_wrap_rule [2] [1] [0] rfl rfl (by decide) (by decide) (by decide)

/-- C9: with equal endpoints the interval is empty, not the full ring: both
predicates return `false` for every key, including the endpoint itself. -/
theorem between_empty_interval (a x : List Nat) :
    between a a x = false ∧ betweenRightIncl a a x = false := by
  cases h : compareBytes a x <;>
    simp [between, betweenRightIncl, compareBytes_self, h]

/-- C6 counterexample: for `id = [0, 1]` (a 16-bit identifier with a leading
zero byte), `k = 0`, `m = 16`, applying `powerOffset` and then subtracting
`2^k` modulo `2^m` yields the byte slice `[1]`, not the original `[0, 1]`:
`big.Int.Bytes` drops leading zero bytes, so the round trip fails at the
byte-slice level. -/
theorem powerOffset_roundtrip_counterexample :
    natToBytes ((bytesToNat (powerOffset [0, 1] 0 16) + (2 ^ 16 - 2 ^ 0)) % 2 ^ 16)
      = [1] ∧ [1] ≠ ([0, 1] : List Nat) := by
  constructor
  · rfl
  · decide

/-- C6 amended: `powerOffset id k m` always has numeric value
`(id + 2^k) mod 2^m`; for `k < m` and `id` of at most `m` bits, modular
subtraction of `2^k` recovers the numeric value of `id`; the byte-slice
round trip additionally needs `id` to carry no leading zero byte. -/
theorem powerOffset_spec (id : List Nat) (k m : Nat) :
    bytesToNat (powerOffset id k m) = (bytesToNat id + 2 ^ k) % 2 ^ m ∧
    (k < m → 8 * id.length ≤ m → (∀ z ∈ id, z < 256) →
      ((bytesToNat (powerOffset id k m) + (2 ^ m - 2 ^ k)) % 2 ^ m
          = bytesToNat id ∧
       ((∀ h t, id = h :: t → h ≠ 0) →
        natToBytes ((bytesToNat (powerOffset id k m) + (2 ^ m - 2 ^ k)) % 2 ^ m)
          = id))) := by
  have hval : bytesToNat (powerOffset id k m) = (bytesToNat id + 2 ^ k) % 2 ^ m :=
    bytesToNat_natToBytes _
  refine ⟨hval, fun hk hlen hb => ?_⟩
  have hP : 0 < 2 ^ m := Nat.pos_pow_of_pos _ (by omega)
  have hkP : 2 ^ k ≤ 2 ^ m := Nat.pow_le_pow_right (by omega) (by omega)
  have hid : bytesToNat id < 2 ^ m := by
    calc bytesToNat id < 256 ^ id.length := bytesToNat_lt id hb
      _ = 2 ^ (8 * id.length) := by
          rw [Nat.pow_mul]
      _ ≤ 2 ^ m := Nat.pow_le_pow_right (by omega) hlen
  have hnum : (bytesToNat (powerOffset id k m) + (2 ^ m - 2 ^ k)) % 2 ^ m
      = bytesToNat id := by
    rw [hval, Nat.mod_add_mod]
    have : bytesToNat id + 2 ^ k + (2 ^ m - 2 ^ k) = bytesToNat id + 2 ^ m := by
      omega
    rw [this, Nat.add_mod_right, Nat.mod_eq_of_lt hid]
  exact ⟨hnum, fun hhead => by rw [hnum]; exact natToBytes_bytesToNat id hb hhead⟩

theorem powerOffset_spec_witness :
    (bytesToNat (powerOffset [3] 2 8) + (2 ^ 8 - 2 ^ 2)) % 2 ^ 8
        = bytesToNat [3] ∧
    natToBytes ((bytesToNat (powerOffset [3] 2 8) + (2 ^ 8 - 2 ^ 2)) % 2 ^ 8)
        = [3] :=
  have h := (powerOffset_spec [3] 2 8).2 (by decide) (by decide) (by decide)
  ⟨h.1, h.2 (by intro a t he; cases he; decide)⟩

/-! ### C1: the timeout sweep and the op-log -/

/-- C1 counterexample: in the state `exSt1` the write lock on "a" has
expired by instant 1; the sweep drops it, yet the op-log afterwards
contains no ABORT entry at all (the ticker body only deletes map entries,
it never appends to the log). -/
theorem sweep_no_abort_counterexample :
    exSt1.WLocks "a" = some ⟨"n1", "L1", 1, 0⟩ ∧
    (sweepWLocks exSt1 1).WLocks "a" = none ∧
    (sweepWLocks exSt1 1).OpsLog.all (fun e => e.Op ≠ "ABORT") = true := by
  refine ⟨?_, ?_, ?_⟩ <;> decide

/-- C1 amended: one firing of the ≈500 ms timeout ticker removes exactly
the `WLocks` entries whose deadline is at or before the current instant and
leaves the op-log untouched — no ABORT record is appended. -/
theorem sweepWLocks_spec (lm : LManager) (now : Nat) (k : String) :
    (sweepWLocks lm now).OpsLog = lm.OpsLog ∧
    (∀ e, lm.WLocks k = some e → e.timeout ≤ now →
      (sweepWLocks lm now).WLocks k = none) ∧
    (∀ e, lm.WLocks k = some e → now < e.timeout →
      (sweepWLocks lm now).WLocks k = some e) ∧
    (lm.WLocks k = none → (sweepWLocks lm now).WLocks k = none) := by
  refine ⟨rfl, ?_, ?_, ?_⟩
  · intro e he ht
    have hstep : (sweepWLocks lm now).WLocks k
        = if e.timeout ≤ now then none else some e := by
      show (match lm.WLocks k with
        | none => none
        | some e => if e.timeout ≤ now then none else some e) = _
      rw [he]
    rw [hstep, if_pos ht]
  · intro e he ht
    have hstep : (sweepWLocks lm now).WLocks k
        = if e.timeout ≤ now then none else some e := by
      show (match lm.WLocks k with
        | none => none
        | some e => if e.timeout ≤ now then none else some e) = _
      rw [he]
    rw [hstep, if_neg (by omega)]
  · intro he
    show (match lm.WLocks k with
      | none => none
      | some e => if e.timeout ≤ now then none else some e) = none
    rw [he]

theorem sweepWLocks_spec_witness :
    (sweepWLocks exSt1 1).OpsLog = exSt1.OpsLog ∧
    (sweepWLocks exSt1 1).WLocks "a" = none :=
  ⟨(sweepWLocks_spec exSt1 1 "a").1,
   (sweepWLocks_spec exSt1 1 "a").2.1 ⟨"n1", "L1", 1, 0⟩ (by decide) (by decide)⟩

theorem logOK_append (lm lm' : LManager) (e : OpsLogEntry)
    (h : logOK lm) (hlen : lm.OpsLog.length + 1 < UINT64)
    (hc : lm'.currOpNum = (lm.currOpNum + 1) % UINT64)
    (hl : lm'.OpsLog = lm.OpsLog ++ [e])
    (he : e.OpNum = (lm.currOpNum + 1) % UINT64) :
    logOK lm' ∧ lm'.OpsLog.length = lm.OpsLog.length + 1 := by
  obtain ⟨h1, h2, h3⟩ := h
  have hmod : (lm.currOpNum + 1) % UINT64 = lm.currOpNum + 1 :=
    Nat.mod_eq_of_lt (by omega)
  refine ⟨⟨?_, ?_, ?_⟩, ?_⟩
  · rw [hc, hl, hmod, List.length_append, h1]
    simp
  · rw [hl, List.chain'_append]
    refine ⟨h2, List.chain'_singleton _, ?_⟩
    intro x hx y hy
    have hxmem : x ∈ lm.OpsLog := by
      rcases List.mem_getLast?_eq_getLast hx with ⟨hne, hxe⟩
      rw [hxe]
      exact List.getLast_mem hne
    have hy' : e = y := by simpa using hy
    subst hy'
    have := h3 x hxmem
    rw [he, hmod]
    omega
  · intro x hx
    rw [hl] at hx
    rcases List.mem_append.mp hx with hx | hx
    · have := h3 x hx
      rw [hc, hmod]
      omega
    · have hx' : x = e := by simpa using hx
      subst hx'
      rw [he, hc]
  · rw [hl]
    simp

theorem wLockGrant_logOK (lm : LManager) (k : String) (v t : Nat)
    (n lid : String) (now : Nat)
    (h : logOK lm) (hlen : lm.OpsLog.length + 1 < UINT64) :
    logOK (wLockGrant lm k v t n lid now).1 ∧
    (wLockGrant lm k v t n lid now).1.OpsLog.length = lm.OpsLog.length + 1 :=
  logOK_append lm _ _ h hlen rfl rfl rfl

theorem checkWLock_err (lm : LManager) (key : String) :
    (checkWLock lm key).2.2 = none := by
  rw [checkWLock]
  cases lm.WLocks key <;> rfl

theorem commitApply_logOK (lm : LManager) (key : String) (version : Nat)
    (h : logOK lm) (hlen : lm.OpsLog.length + 1 < UINT64) :
    logOK (commitApply lm key version) ∧
    (commitApply lm key version).OpsLog.length = lm.OpsLog.length + 1 :=
  logOK_append lm _ _ h hlen rfl rfl rfl

theorem abortApply_logOK (lm : LManager) (key : String) (version : Nat)
    (h : logOK lm) (hlen : lm.OpsLog.length + 1 < UINT64) :
    logOK (abortApply lm key version) ∧
    (abortApply lm key version).OpsLog.length = lm.OpsLog.length + 1 :=
  logOK_append lm _ _ h hlen rfl rfl rfl

theorem lmStep_logOK (lm : LManager) (op : LMOp) (h : logOK lm)
    (hlen : lm.OpsLog.length + 1 < UINT64) :
    logOK (lmStep lm op) ∧
    (lmStep lm op).OpsLog.length ≤ lm.OpsLog.length + 1 := by
  cases op with
  | wlock k v t n lid now =>
    simp only [lmStep, createWLock]
    split
    · next a b err heq =>
      have := checkWLock_err lm k
      rw [heq] at this
      simp at this
    · next present ver heq =>
      split
      · exact ⟨h, by show lm.OpsLog.length ≤ lm.OpsLog.length + 1; omega⟩
      · split
        · split
          · obtain ⟨hg1, hg2⟩ :=
              wLockGrant_logOK lm k ((lm.VersionMap k + 1) % UINT64) t n lid now h hlen
            exact ⟨hg1, by omega⟩
          · exact ⟨h, by show lm.OpsLog.length ≤ lm.OpsLog.length + 1; omega⟩
        · obtain ⟨hg1, hg2⟩ := wLockGrant_logOK lm k v t n lid now h hlen
          exact ⟨hg1, by omega⟩
  | commit k v n =>
    simp only [lmStep, commitWLock]
    split
    · next a b err heq =>
      have := checkWLock_err lm k
      rw [heq] at this
      simp at this
    · next present ver heq =>
      split
      · exact ⟨h, by show lm.OpsLog.length ≤ lm.OpsLog.length + 1; omega⟩
      · split
        · exact ⟨h, by show lm.OpsLog.length ≤ lm.OpsLog.length + 1; omega⟩
        · obtain ⟨hg1, hg2⟩ := commitApply_logOK lm k v h hlen
          have hle : (commitApply lm k v).OpsLog.length ≤ lm.OpsLog.length + 1 := by
            omega
          split
          · exact ⟨hg1, hle⟩
          · split
            · exact ⟨hg1, hle⟩
            · exact ⟨hg1, hle⟩
  | abort k v n =>
    simp only [lmStep, abortWLock]
    split
    · next a b err heq =>
      have := checkWLock_err lm k
      rw [heq] at this
      simp at this
    · next present ver heq =>
      split
      · exact ⟨h, by show lm.OpsLog.length ≤ lm.OpsLog.length + 1; omega⟩
      · split
        · exact ⟨h, by show lm.OpsLog.length ≤ lm.OpsLog.length + 1; omega⟩
        · obtain ⟨hg1, hg2⟩ := abortApply_logOK lm k v h hlen
          exact ⟨hg1, by
            show (abortApply lm k v).OpsLog.length ≤ lm.OpsLog.length + 1
            omega⟩

theorem foldl_logOK (ops : List LMOp) :
    ∀ lm, logOK lm → lm.OpsLog.length + ops.length < UINT64 →
      logOK (ops.foldl lmStep lm) ∧
      (ops.foldl lmStep lm).OpsLog.length ≤ lm.OpsLog.length + ops.length := by
  induction ops with
  | nil =>
    intro lm h _
    exact ⟨h, by simp⟩
  | cons op rest ih =>
    intro lm h hlen
    simp only [List.length_cons] at hlen
    have hstep := lmStep_logOK lm op h (by omega)
    have hrec := ih (lmStep lm op) hstep.1 (by omega)
    simp only [List.foldl_cons, List.length_cons]
    exact ⟨hrec.1, by omega⟩

/-- C7: within one lock-manager term, every sequence of `createWLock`,
`commitWLock` and `abortWLock` operations started from the initial state
(and short enough for the `uint64` counter not to wrap) yields an op-log
whose `OpNum` values are strictly increasing in append order. -/
theorem opsLog_opNum_strict_mono (ops : List LMOp) (h : ops.length < UINT64) :
    (ops.foldl lmStep initLM).OpsLog.Pairwise (fun a b => a.OpNum < b.OpNum) := by
  have hinit : logOK initLM := by
    refine ⟨rfl, List.chain'_nil, ?_⟩
    intro e he
    simp [initLM] at he
  have hall := (foldl_logOK ops initLM hinit (by simpa [initLM] using h)).1
  exact List.chain'_iff_pairwise.mp hall.2.1

theorem opsLog_opNum_strict_mono_witness :
    ([LMOp.wlock "a" 0 5 "n1" "L1" 100, LMOp.commit "a" 1 "n1",
      LMOp.wlock "a" 0 5 "n1" "L2" 200,
      LMOp.abort "a" 2 "n1"].foldl lmStep initLM).OpsLog.Pairwise
      (fun a b => a.OpNum < b.OpNum) :=
  opsLog_opNum_strict_mono _ (by decide)

/-! ### C2: commit behaviour -/

/-- C2: a successful `commitWLock` on a key holding a write lock at exactly
the stated version reports no error, sets `VersionMap[key]` to the version,
appends a COMMIT record under the incremented operation number, deletes the
write lock, and issues `InvalidateRLock` transport calls exactly when
`version > 1` — one per `(nodeId, lockId)` recorded in `RLocks[key].nodeSet`
— while `version == 1` issues none. -/
theorem commitWLock_spec (lm : LManager) (key : String) (version : Nat)
    (nodeID : String) (e : WLockEntry)
    (hW : lm.WLocks key = some e) (hv : e.version = version)
    (hv1 : 1 ≤ version) :
    (commitWLock lm key version nodeID).2.2 = none ∧
    (commitWLock lm key version nodeID).1.VersionMap key = version ∧
    (commitWLock lm key version nodeID).1.OpsLog
      = lm.OpsLog ++
        [⟨(lm.currOpNum + 1) % UINT64, "COMMIT", key, version, none⟩] ∧
    (commitWLock lm key version nodeID).1.WLocks key = none ∧
    (version = 1 → (commitWLock lm key version nodeID).2.1 = []) ∧
    (1 < version →
      (commitWLock lm key version nodeID).2.1
        = (match lm.RLocks key with
           | none => []
           | some re => re.nodeSet.map (fun ent => (ent.1, ent.2.2, ent.2.1)))) := by
  have hcheck : checkWLock lm key = (true, version, none) := by
    rw [checkWLock, hW]
    show (true, e.version, none) = _
    rw [hv]
  have hVM : (commitApply lm key version).VersionMap key = version := by
    simp [commitApply, mapUpd]
  have hWL : (commitApply lm key version).WLocks key = none := by
    simp [commitApply, mapUpd]
  have hLog : (commitApply lm key version).OpsLog
      = lm.OpsLog ++
        [⟨(lm.currOpNum + 1) % UINT64, "COMMIT", key, version, none⟩] := rfl
  by_cases h1 : version = 1
  · have hcw : commitWLock lm key version nodeID
        = (commitApply lm key version, [], none) := by
      simp [commitWLock, hcheck, h1]
    rw [hcw]
    exact ⟨rfl, hVM, hLog, hWL, fun _ => rfl, fun hlt => absurd h1 (by omega)⟩
  · cases hr : lm.RLocks key with
    | none =>
      have hcw : commitWLock lm key version nodeID
          = (commitApply lm key version, [], none) := by
        simp [commitWLock, hcheck, h1, hr]
      rw [hcw]
      exact ⟨rfl, hVM, hLog, hWL, fun h => absurd h h1, fun _ => rfl⟩
    | some re =>
      have hcw : commitWLock lm key version nodeID
          = (commitApply lm key version,
             re.nodeSet.map (fun ent => (ent.1, ent.2.2, ent.2.1)), none) := by
        simp [commitWLock, hcheck, h1, hr]
      rw [hcw]
      exact ⟨rfl, hVM, hLog, hWL, fun h => absurd h h1, fun _ => rfl⟩

theorem commitWLock_spec_witness :
    (commitWLock exA4 "a" 2 "n1").2.2 = none ∧
    (commitWLock exA4 "a" 2 "n1").1.VersionMap "a" = 2 ∧
    (commitWLock exA4 "a" 2 "n1").1.WLocks "a" = none ∧
    (commitWLock exA4 "a" 2 "n1").2.1 = [("n2", "addr2", "R1")] :=
  have h := commitWLock_spec exA4 "a" 2 "n1" ⟨"n1", "L2", 2, 205⟩
    (by decide) (by decide) (by decide)
  ⟨h.1, h.2.1, h.2.2.2.1, (h.2.2.2.2.2 (by decide)).trans (by decide)⟩

/-! ### C3: write-lock creation and stale-version rejection -/

/-- C3: with no lock held on the key, a zero-version request is granted at
version `VersionMap[key] + 1`, while a nonzero request at or below the
committed version is rejected with the stale-write error, returning the
committed version and leaving the state (hence the lock table) unchanged. -/
theorem createWLock_spec (lm : LManager) (key : String) (timeout : Nat)
    (nodeID lockID : String) (now : Nat)
    (hW : lm.WLocks key = none)
    (hvm : lm.VersionMap key + 1 < UINT64) :
    (createWLock lm key 0 timeout nodeID lockID now).2.2.2.2 = none ∧
    (createWLock lm key 0 timeout nodeID lockID now).2.1 = lockID ∧
    (createWLock lm key 0 timeout nodeID lockID now).2.2.1
      = lm.VersionMap key + 1 ∧
    (createWLock lm key 0 timeout nodeID lockID now).1.WLocks key
      = some ⟨nodeID, lockID, lm.VersionMap key + 1, now + timeout⟩ ∧
    (∀ v, 1 ≤ v → v ≤ lm.VersionMap key →
      createWLock lm key v timeout nodeID lockID now
        = (lm, "", lm.VersionMap key, 0,
           some "Committed version is higher than requested version")) := by
  have hcheck : checkWLock lm key = (false, 0, none) := by
    rw [checkWLock, hW]
  have hmod : (lm.VersionMap key + 1) % UINT64 = lm.VersionMap key + 1 :=
    Nat.mod_eq_of_lt hvm
  have hz : createWLock lm key 0 timeout nodeID lockID now
      = wLockGrant lm key ((lm.VersionMap key + 1) % UINT64) timeout nodeID lockID now := by
    simp [createWLock, hcheck]
  refine ⟨?_, ?_, ?_, ?_, ?_⟩
  · rw [hz]; rfl
  · rw [hz]; rfl
  · rw [hz]
    show (lm.VersionMap key + 1) % UINT64 = lm.VersionMap key + 1
    exact hmod
  · rw [hz]
    show mapUpd lm.WLocks key
        (some ⟨nodeID, lockID, (lm.VersionMap key + 1) % UINT64, now + timeout⟩) key
      = _
    rw [mapUpd, if_pos rfl, hmod]
  · intro v h1 h2
    have hcw : createWLock lm key v timeout nodeID lockID now
        = (lm, "", lm.VersionMap key, 0,
           some "Committed version is higher than requested version") := by
      simp [createWLock, hcheck, h2]
      omega
    exact hcw

theorem createWLock_spec_witness :
    (createWLock exA2 "a" 0 5 "n1" "L2" 200).2.2.1 = exA2.VersionMap "a" + 1 ∧
    (createWLock exA2 "a" 1 5 "n3" "L9" 200).2.2.2.2
      = some "Committed version is higher than requested version" :=
  have h := createWLock_spec exA2 "a" 5 "n1" "L2" 200 (by decide) (by decide)
  have h2 := createWLock_spec exA2 "a" 5 "n3" "L9" 200 (by decide) (by decide)
  ⟨h.2.2.1, by
    rw [h2.2.2.2.2 1 (by decide) (by decide)]⟩

/-! ### C10: read-lock bookkeeping -/

theorem nsLookup_cons (e : String × String × String)
    (rest : List (String × String × String)) (m : String) :
    nsLookup (e :: rest) m = if e.1 = m then some e.2 else nsLookup rest m := by
  by_cases h : e.1 = m <;> simp [nsLookup, List.find?_cons, h]

theorem nsLookup_nsInsert_self (ns : List (String × String × String))
    (n l a : String) : nsLookup (nsInsert ns n l a) n = some (l, a) := by
  induction ns with
  | nil => simp [nsInsert, nsLookup_cons]
  | cons e rest ih =>
    by_cases he : e.1 = n
    · rw [nsInsert, if_pos he, nsLookup_cons]
      simp
    · rw [nsInsert, if_neg he, nsLookup_cons, if_neg he]
      exact ih

theorem nsLookup_nsInsert_other (ns : List (String × String × String))
    (n l a m : String) (hm : m ≠ n) :
    nsLookup (nsInsert ns n l a) m = nsLookup ns m := by
  induction ns with
  | nil =>
    rw [nsInsert, nsLookup_cons, if_neg (Ne.symm hm)]
  | cons e rest ih =>
    by_cases he : e.1 = n
    · rw [nsInsert, if_pos he, nsLookup_cons, nsLookup_cons,
        if_neg (show ¬ (n = m) from Ne.symm hm),
        if_neg (show ¬ (e.1 = m) from by rw [he]; exact Ne.symm hm)]
    · rw [nsInsert, if_neg he, nsLookup_cons, nsLookup_cons, ih]

theorem nsInsert_map_fst (ns : List (String × String × String))
    (n l a : String) :
    (nsInsert ns n l a).map Prod.fst
      = if n ∈ ns.map Prod.fst then ns.map Prod.fst
        else ns.map Prod.fst ++ [n] := by
  induction ns with
  | nil => simp [nsInsert]
  | cons e rest ih =>
    by_cases he : e.1 = n
    · have hmem : n ∈ (e :: rest).map Prod.fst := by
        simp only [List.map_cons, List.mem_cons]
        exact Or.inl he.symm
      rw [nsInsert, if_pos he, if_pos hmem]
      simp [he]
    · have hiff : (n ∈ (e :: rest).map Prod.fst) ↔ (n ∈ rest.map Prod.fst) := by
        simp only [List.map_cons, List.mem_cons]
        constructor
        · rintro (h | h)
          · exact absurd h.symm he
          · exact h
        · exact Or.inr
      by_cases hmem : n ∈ rest.map Prod.fst
      · rw [nsInsert, if_neg he, if_pos (hiff.mpr hmem)]
        simp only [List.map_cons, ih, if_pos hmem]
      · rw [nsInsert, if_neg he, if_neg (fun h => hmem (hiff.mp h))]
        simp only [List.map_cons, ih, if_neg hmem]
        simp

theorem nsInsert_nodup (ns : List (String × String × String))
    (n l a : String) (hnd : (ns.map Prod.fst).Nodup) :
    ((nsInsert ns n l a).map Prod.fst).Nodup := by
  rw [nsInsert_map_fst]
  by_cases hmem : n ∈ ns.map Prod.fst
  · simpa [hmem] using hnd
  · simp only [if_neg hmem]
    simpa [List.nodup_append, hmem] using hnd

theorem nsInsert_key_unique (ns : List (String × String × String))
    (n l a : String) (hnd : (ns.map Prod.fst).Nodup) :
    ∀ l' a', (n, l', a') ∈ nsInsert ns n l a → l' = l ∧ a' = a := by
  induction ns with
  | nil =>
    intro l' a' hmem
    have h : (n, l', a') = (n, l, a) := by simpa [nsInsert] using hmem
    simp only [Prod.mk.injEq] at h
    exact ⟨h.2.1, h.2.2⟩
  | cons e rest ih =>
    intro l' a' hmem
    have hnd' : (rest.map Prod.fst).Nodup := (List.nodup_cons.mp hnd).2
    by_cases he : e.1 = n
    · rw [nsInsert, if_pos he] at hmem
      rcases List.mem_cons.mp hmem with h | h
      · simp only [Prod.mk.injEq] at h
        exact ⟨h.2.1, h.2.2⟩
      · exfalso
        have hkey : n ∈ rest.map Prod.fst :=
          List.mem_map.mpr ⟨(n, l', a'), h, rfl⟩
        have hout : e.1 ∉ rest.map Prod.fst := (List.nodup_cons.mp hnd).1
        rw [he] at hout
        exact hout hkey
    · rw [nsInsert, if_neg he] at hmem
      rcases List.mem_cons.mp hmem with h | h
      · exfalso
        apply he
        rw [← h]
      · exact ih hnd' l' a' h

/-- C10: a successful `createRLock` reports no error, returns the fresh
lock id and the committed version, and records for the calling node exactly
one `nodeSet` entry — the fresh lock id and caller address — overwriting
any earlier entry for the same node on the same key while leaving other
nodes' entries alone; a replaced lock id is no longer recorded. -/
theorem createRLock_spec (lm : LManager) (key nodeID remoteAddr lockID : String)
    (hv : lm.VersionMap key ≠ 0)
    (hnd : ((rlockNodeSet lm key).map Prod.fst).Nodup) :
    (createRLock lm key nodeID remoteAddr lockID).2.2.2 = none ∧
    (createRLock lm key nodeID remoteAddr lockID).2.1 = lockID ∧
    (createRLock lm key nodeID remoteAddr lockID).2.2.1 = lm.VersionMap key ∧
    ∃ re', (createRLock lm key nodeID remoteAddr lockID).1.RLocks key = some re' ∧
      nsLookup re'.nodeSet nodeID = some (lockID, remoteAddr) ∧
      (∀ m, m ≠ nodeID →
        nsLookup re'.nodeSet m = nsLookup (rlockNodeSet lm key) m) ∧
      (re'.nodeSet.map Prod.fst).Nodup ∧
      (∀ l' a', (nodeID, l', a') ∈ re'.nodeSet →
        l' = lockID ∧ a' = remoteAddr) := by
  have hred : createRLock lm key nodeID remoteAddr lockID
      = ({ lm with RLocks := (mapUpd lm.RLocks key
            (some ⟨nsInsert (rlockNodeSet lm key) nodeID lockID remoteAddr⟩)) },
         lockID, lm.VersionMap key, none) := by
    rw [createRLock, if_neg hv]
  rw [hred]
  refine ⟨rfl, rfl, rfl,
    ⟨⟨nsInsert (rlockNodeSet lm key) nodeID lockID remoteAddr⟩, ?_, ?_, ?_, ?_, ?_⟩⟩
  · show mapUpd lm.RLocks key _ key = _
    rw [mapUpd, if_pos rfl]
  · exact nsLookup_nsInsert_self _ _ _ _
  · exact fun m hm => nsLookup_nsInsert_other _ _ _ _ m hm
  · exact nsInsert_nodup _ _ _ _ hnd
  · exact nsInsert_key_unique _ _ _ _ hnd

theorem createRLock_spec_witness :
    (createRLock exA2 "a" "n2" "addr2" "R1").2.2.2 = none ∧
    (createRLock exA2 "a" "n2" "addr2" "R1").2.2.1 = exA2.VersionMap "a" :=
  have h := createRLock_spec exA2 "a" "n2" "addr2" "R1" (by decide) (by decide)
  ⟨h.1, h.2.2.1⟩

theorem firstForwardSuccess_none (fw : List (Option (List (Option Vn))))
    (h : ∀ a ∈ fw, a = none) : firstForwardSuccess fw = none := by
  induction fw with
  | nil => rfl
  | cons a rest ih =>
    have ha : a = none := h a (List.mem_cons_self a rest)
    subst ha
    exact ih (fun a ha => h a (List.mem_cons_of_mem _ ha))

/-- C4 counterexample: every forward has failed (there are none), successor
index 1 satisfies `betweenRightIncl(self.Id, successors[1].Id, key)`, yet
`FindSuccessors` returns the exhaustion error because the fallback loop
`for i := 1; i <= successors-n; i++` scans no index when
`knownSuccessors - n = 0`. -/
theorem findSuccessors_fallback_counterexample :
    (findSuccessors [10] cexSuccs 2 [25] []).2
      = some "Exhausted all preceeding nodes!" ∧
    (findSuccessors [10] cexSuccs 2 [25] []).1 = none ∧
    betweenRightIncl [10] (idOf (cexSuccs.getD 1 none)) [25] = true ∧
    betweenRightIncl [10] (idOf (cexSuccs.getD 0 none)) [25] = false := by
  refine ⟨?_, ?_, ?_, ?_⟩ <;> decide

/-- C4 amended: when the key is not covered by `successors[0]` and every
forward fails, the fallback scans only the indices `1 ≤ i ≤
knownSuccessors - n` (not the whole successor list): the call fails with
the exhaustion error iff no index in that range satisfies
`betweenRightIncl`, and on the first matching index it returns the slice
from that index trimmed to `n` entries. -/
theorem findSuccessors_fallback_spec (selfId : List Nat)
    (succs : List (Option Vn)) (n : Nat) (key : List Nat)
    (forwards : List (Option (List (Option Vn))))
    (h0 : betweenRightIncl selfId (idOf (succs.getD 0 none)) key = false)
    (hf : ∀ a ∈ forwards, a = none) :
    (findSuccessors selfId succs n key forwards
        = (none, some "Exhausted all preceeding nodes!")
      ↔ ∀ i, 1 ≤ i → i ≤ knownSuccessors succs - n →
          betweenRightIncl selfId (idOf (succs.getD i none)) key = false) ∧
    (∀ i, (List.range' 1 (knownSuccessors succs - n)).find?
        (fun j => betweenRightIncl selfId (idOf (succs.getD j none)) key)
          = some i →
      findSuccessors selfId succs n key forwards
        = (some (copyOfVnodesList
            (if (succs.drop i).length > n then (succs.drop i).take n
             else succs.drop i)
            (if (succs.drop i).length > n then (succs.drop i).take n
             else succs.drop i).length), none)) := by
  have hred : findSuccessors selfId succs n key forwards
      = match (List.range' 1 (knownSuccessors succs - n)).find?
            (fun i => betweenRightIncl selfId (idOf (succs.getD i none)) key) with
        | some i =>
          (some (copyOfVnodesList
            (if (succs.drop i).length > n then (succs.drop i).take n
             else succs.drop i)
            (if (succs.drop i).length > n then (succs.drop i).take n
             else succs.drop i).length), none)
        | none => (none, some "Exhausted all preceeding nodes!") := by
    rw [findSuccessors, if_neg (by rw [h0]; simp),
      firstForwardSuccess_none forwards hf]
  constructor
  · cases hfind : (List.range' 1 (knownSuccessors succs - n)).find?
        (fun i => betweenRightIncl selfId (idOf (succs.getD i none)) key) with
    | none =>
      rw [hred, hfind]
      simp only [true_iff]
      intro i h1 h2
      have := List.find?_eq_none.mp hfind i
        (List.mem_range'_1.mpr ⟨h1, by omega⟩)
      simpa using this
    | some i =>
      rw [hred, hfind]
      have hp : betweenRightIncl selfId (idOf (succs.getD i none)) key = true := by
        simpa using List.find?_some hfind
      have hmem : i ∈ List.range' 1 (knownSuccessors succs - n) :=
        List.mem_of_find?_eq_some hfind
      have hrange := List.mem_range'_1.mp hmem
      constructor
      · intro h
        exact absurd h (by simp)
      · intro h
        have := h i hrange.1 (by omega)
        rw [hp] at this
        exact absurd this (by simp)
  · intro i hfind
    rw [hred, hfind]

theorem findSuccessors_fallback_spec_witness :
    findSuccessors [10] cexSuccs 1 [25] [none]
      = (some [some ⟨[30], "h2"⟩], none) :=
  ((findSuccessors_fallback_spec [10] cexSuccs 1 [25] [none]
      (by decide) (by decide)).2 1 (by decide)).trans (by decide)

theorem trimRev_eq_none_iff (l : List (Option Vn)) :
    trimRev l = none ↔ ∀ x ∈ l, x = none := by
  induction l with
  | nil => simp [trimRev]
  | cons x rest ih =>
    cases x with
    | none => simpa [trimRev] using ih
    | some v => simp [trimRev]

theorem trimRev_some_head (l l' : List (Option Vn))
    (h : trimRev l = some l') : ∃ v rest, l' = some v :: rest := by
  induction l generalizing l' with
  | nil => simp [trimRev] at h
  | cons x rest ih =>
    cases x with
    | none => exact ih l' h
    | some v =>
      rw [trimRev] at h
      exact ⟨v, rest, (Option.some.injEq _ _ ▸ h.symm : _)⟩

/-- C8: `Ring.Lookup` is not total after a successful `FindSuccessors`:
the trailing-nil trim panics (indexes `successors[-1]`) exactly when the
returned list is empty or holds only nil entries, and whenever `Lookup`
returns normally the trimmed result contains a non-nil vnode. -/
theorem ringLookup_totality (succs : List (Option Vn)) :
    (ringLookup succs none = none ↔ ∀ x ∈ succs, x = none) ∧
    (∀ out, ringLookup succs none = some (out, none) → ∃ v, some v ∈ out) := by
  constructor
  · show (lookupTrim succs).map (fun out => (out, none)) = none ↔ _
    rw [Option.map_eq_none', lookupTrim, Option.map_eq_none',
      trimRev_eq_none_iff]
    constructor
    · intro h x hx
      exact h x (List.mem_reverse.mpr hx)
    · intro h x hx
      exact h x (List.mem_reverse.mp hx)
  · intro out h
    have h' : (lookupTrim succs).map (fun out => (out, none)) = some (out, none) := h
    rcases Option.map_eq_some'.mp h' with ⟨out', hout', heq⟩
    have hout : out' = out := by
      have := congrArg Prod.fst heq
      simpa using this
    subst hout
    rcases Option.map_eq_some'.mp hout' with ⟨rl, hrl, hrev⟩
    rcases trimRev_some_head _ _ hrl with ⟨v, rest, hhead⟩
    refine ⟨v, ?_⟩
    rw [← hrev, hhead]
    simp

theorem ringLookup_totality_witness :
    ∃ v, some v ∈ ([none, some ⟨[1], "h"⟩] : List (Option Vn)) :=
  (ringLookup_totality [none, some ⟨[1], "h"⟩, none]).2
    [none, some ⟨[1], "h"⟩] (by decide)

end BuddyStore
